import Mathlib

/-!
Verification of the enterprise-contracts funds-distributor accounting engine
and the governance-controller validators, as a shallow embedding in Lean 4.

The embedding covers:
* `contracts/funds-distributor/src/claim.rs` (`claim_rewards`),
* `contracts/enterprise-governance-controller/src/validate.rs`
  (`validate_modify_multisig_membership`, `validate_distribute_funds`),
* the distribution engine operations (`distribute`, `updateWeights`, `settle`)
  whose source files are not in scope; those are modelled from the spec.

Machine integers (`Uint128`) are modelled as `Nat`; `Decimal` (a fixed-point
number with 18 fractional digits) is modelled as its atomics, a `Nat` counting
units of `10 ^ (-18)`.  Storage maps are modelled as association lists with
insert-replaces-in-place semantics.  Fallible code returns `Except`.
-/

namespace Enterprise

/-- The scaling factor of cosmwasm `Decimal`: `10^18` atomics per unit. -/
def SCALE : Nat := 10 ^ 18

/-! ## Association-list storage maps -/

/-- Look up a key in an association list (first match). -/
def lookupAL {α β : Type} [DecidableEq α] (l : List (α × β)) (k : α) : Option β :=
  match l with
  | [] => none
  | (k', v) :: rest => if k' = k then some v else lookupAL rest k

/-- Insert a key/value pair: replace in place if the key is present, else append. -/
def insertAL {α β : Type} [DecidableEq α] (l : List (α × β)) (k : α) (v : β) :
    List (α × β) :=
  match l with
  | [] => [(k, v)]
  | (k', v') :: rest =>
      if k' = k then (k', v) :: rest else (k', v') :: insertAL rest k v

theorem lookupAL_insertAL_self {α β : Type} [DecidableEq α]
    (l : List (α × β)) (k : α) (v : β) : lookupAL (insertAL l k v) k = some v := by
  induction l with
  | nil => simp [insertAL, lookupAL]
  | cons hd tl ih =>
      obtain ⟨k', v'⟩ := hd
      by_cases h : k' = k
      · simp [insertAL, lookupAL, h]
      · simp [insertAL, lookupAL, h, ih]

theorem lookupAL_insertAL_ne {α β : Type} [DecidableEq α]
    (l : List (α × β)) (k k' : α) (v : β) (h : k ≠ k') :
    lookupAL (insertAL l k v) k' = lookupAL l k' := by
  induction l with
  | nil => simp [insertAL, lookupAL, h]
  | cons hd tl ih =>
      obtain ⟨k₀, v₀⟩ := hd
      by_cases hk : k₀ = k
      · subst hk
        simp [insertAL, lookupAL, h]
      · simp [insertAL, lookupAL, hk, ih]

theorem insertAL_eq_of_lookupAL {α β : Type} [DecidableEq α]
    (l : List (α × β)) (k : α) (v : β) (h : lookupAL l k = some v) :
    insertAL l k v = l := by
  induction l with
  | nil => simp [lookupAL] at h
  | cons hd tl ih =>
      obtain ⟨k', v'⟩ := hd
      by_cases hk : k' = k
      · subst hk
        simp [lookupAL] at h
        simp [insertAL, h]
      · simp [lookupAL, hk] at h
        simp [insertAL, hk, ih h]

/-! ## Address validation

Modelled from the spec: "`InvalidMember` / `InvalidAssetIdentity` — malformed
addresses/denoms; rejected before any state mutation."  The host API
`deps.api.addr_validate` (external to this repository) accepts a canonical
lower-case address string and rejects anything else; we model validity as a
decidable predicate on strings and validation as the identity on valid input. -/

/-- A string is a valid address when it is non-empty and all lower-case
alphanumeric.  Stand-in for the host's bech32 check. -/
def isValidAddr (s : String) : Bool :=
  s.length != 0 && s.toList.all (fun c => c.isLower || c.isDigit)

/-- Errors of the funds-distributor entry points. -/
inductive DistributorError : Type
  | invalidAddress (s : String)
  deriving DecidableEq, Repr

/-- `deps.api.addr_validate`: returns the address unchanged when valid,
fails otherwise.  Modelled from the spec (host API, external collaborator). -/
def addrValidate (s : String) : Except DistributorError String :=
  if isValidAddr s then .ok s else .error (.invalidAddress s)

/-! ## `claim.rs` data model -/

/-- `NativeDistribution`: the per-(user, denom) distribution record saved by
`claim_rewards` (claim.rs lines 49–54). -/
structure NativeDistribution : Type where
  user : String
  denom : String
  user_index : Nat
  pending_rewards : Nat
  deriving DecidableEq, Repr

/-- `Cw20Distribution`: the per-(user, cw20 asset) distribution record saved by
`claim_rewards` (claim.rs lines 82–87). -/
structure Cw20Distribution : Type where
  user : String
  cw20_asset : String
  user_index : Nat
  pending_rewards : Nat
  deriving DecidableEq, Repr

/-- The funds-distributor storage touched by `claim_rewards`:
`EFFECTIVE_USER_WEIGHTS`, `NATIVE_DISTRIBUTIONS`, `NATIVE_GLOBAL_INDICES`,
`CW20_DISTRIBUTIONS`, `CW20_GLOBAL_INDICES`.  Global indices are `Decimal`
atomics. -/
structure Storage : Type where
  effective_user_weights : List (String × Nat)
  native_distributions : List ((String × String) × NativeDistribution)
  native_global_indices : List (String × Nat)
  cw20_distributions : List ((String × String) × Cw20Distribution)
  cw20_global_indices : List (String × Nat)
  deriving DecidableEq, Repr

/-- `ClaimRewardsMsg` from `funds-distributor-api`. -/
structure ClaimRewardsMsg : Type where
  user : String
  native_denoms : List String
  cw20_assets : List String
  deriving DecidableEq, Repr

/-- A transfer instruction emitted as a submessage by `claim_rewards`:
`Asset::native(denom, reward).transfer_msg(user)` or
`Asset::cw20(asset, reward).transfer_msg(user)`. -/
inductive Transfer : Type
  | native (denom : String) (amount : Nat) (recipient : String)
  | cw20 (contract : String) (amount : Nat) (recipient : String)
  deriving DecidableEq, Repr

/-- Modelled from the spec: `calculate_user_reward` lives in
`funds-distributor/src/rewards.rs`, which is not among the provided sources.
Per spec §4.3, settlement computes `delta = index - lastSyncedIndex` and
`earned = floor(delta * weight)` (the `Decimal * Uint128` product floors to
whole units), and the reward is the previously pending amount plus `earned`;
an absent record defaults to `lastSyncedIndex = 0, pendingRewards = 0`.
`dist` carries `(user_index, pending_rewards)` of the stored record. -/
def calculate_user_reward (globalIndex : Nat) (dist : Option (Nat × Nat))
    (userWeight : Nat) : Nat :=
  let userIndex := (dist.map Prod.fst).getD 0
  let pending := (dist.map Prod.snd).getD 0
  pending + (globalIndex - userIndex) * userWeight / SCALE

/-- One iteration of the native-denom loop of `claim_rewards`
(claim.rs lines 27–56), threading storage and the accumulated submessages. -/
def processNative (user : String) (userWeight : Nat)
    (acc : Storage × List Transfer) (denom : String) : Storage × List Transfer :=
  let st := acc.1
  let msgs := acc.2
  let distribution := lookupAL st.native_distributions (user, denom)
  let global_index := (lookupAL st.native_global_indices denom).getD 0
  if global_index = 0 then
    (st, msgs)
  else
    let reward := calculate_user_reward global_index
      (distribution.map fun d => (d.user_index, d.pending_rewards)) userWeight
    let msgs' := if reward ≠ 0 then msgs ++ [Transfer.native denom reward user] else msgs
    ({ st with
        native_distributions := insertAL st.native_distributions (user, denom)
          ⟨user, denom, global_index, 0⟩ },
      msgs')

/-- One iteration of the cw20 loop of `claim_rewards` (claim.rs lines 58–89).
The asset address is validated first; a malformed address fails the call. -/
def processCw20 (user : String) (userWeight : Nat)
    (acc : Storage × List Transfer) (asset : String) :
    Except DistributorError (Storage × List Transfer) :=
  match addrValidate asset with
  | .error e => .error e
  | .ok asset =>
      let st := acc.1
      let msgs := acc.2
      let distribution := lookupAL st.cw20_distributions (user, asset)
      let global_index := (lookupAL st.cw20_global_indices asset).getD 0
      if global_index = 0 then
        .ok (st, msgs)
      else
        let reward := calculate_user_reward global_index
          (distribution.map fun d => (d.user_index, d.pending_rewards)) userWeight
        let msgs' := if reward ≠ 0 then msgs ++ [Transfer.cw20 asset reward user] else msgs
        .ok ({ st with
            cw20_distributions := insertAL st.cw20_distributions (user, asset)
              ⟨user, asset, global_index, 0⟩ },
          msgs')

/-- `claim_rewards` (claim.rs lines 18–92): validate the user address, load the
effective user weight (defaulting to zero), then process the requested native
denoms and cw20 assets in order, returning the updated storage and the emitted
transfer submessages. -/
def claim_rewards (st : Storage) (msg : ClaimRewardsMsg) :
    Except DistributorError (Storage × List Transfer) :=
  match addrValidate msg.user with
  | .error e => .error e
  | .ok user =>
      let user_weight := (lookupAL st.effective_user_weights user).getD 0
      let acc := msg.native_denoms.foldl (processNative user user_weight) (st, [])
      msg.cw20_assets.foldlM (processCw20 user user_weight) acc

/-- Modelled from the spec: §5 — the host execution context runs each entry
point atomically, "any failure aborts the entire call with all state mutations
rolled back (all-or-nothing transaction semantics supplied by the host)".
The resulting state of a `ClaimRewards` call is the returned storage on
success and the pre-call storage on error. -/
def executeClaimRewards (st : Storage) (msg : ClaimRewardsMsg) : Storage :=
  match claim_rewards st msg with
  | .ok (st', _) => st'
  | .error _ => st

/-! ## The distribution engine, single asset

Modelled from the spec: the source files implementing `distribute`
(`funds-distributor/src/distributing.rs`), `updateWeights`
(`funds-distributor/src/user_weights.rs`) and `settle`
(`funds-distributor/src/rewards.rs`) are not among the provided sources; the
operations below follow spec §4.2–§4.5 for one fixed asset.  Members are
indexed by `Fin n`; `claimed` and `distributed` are ghost fields recording all
amounts ever paid out by claims and ever distributed, for the conservation
statement.  The `claim` operation agrees with `claim.rs`: it pays
`calculate_user_reward`, zeroes pending rewards and syncs the member index. -/

/-- Per-member engine state: current weight, last synced index (atomics),
settled-but-unclaimed rewards, and (ghost) total claimed so far. -/
structure MemberRec : Type where
  weight : Nat
  userIndex : Nat
  pending : Nat
  claimed : Nat
  deriving DecidableEq, Repr

/-- Engine state for one asset and a fixed population of `n` members. -/
structure EngineState (n : Nat) : Type where
  globalIndex : Nat
  totalWeight : Nat
  minWeight : Nat
  distributed : Nat
  members : Fin n → MemberRec

/-- Errors of the engine entry points. -/
inductive EngineError : Type
  | noEligibleRecipients
  deriving DecidableEq, Repr

/-- A member's eligible contribution: its weight when at least the minimum
eligible weight, else zero (spec §4.4). -/
def eff (minW w : Nat) : Nat := if minW ≤ w then w else 0

/-- Modelled from the spec: `settle(member, asset)` (§4.3).  If the global
index is zero, return without writing; otherwise add
`floor(delta * weight)` to pending rewards (the member's eligible weight, in
`Decimal` atomics, floored to whole units) and sync the member index. -/
def settleRec (g minW : Nat) (r : MemberRec) : MemberRec :=
  if g = 0 then r
  else { r with
          pending := r.pending + (g - r.userIndex) * eff minW r.weight / SCALE,
          userIndex := g }

/-- Modelled from the spec: `distribute(asset, amount)` (§4.2).  Fails with
`NoEligibleRecipients` when the total eligible weight is zero; otherwise adds
`amount / TotalEligibleWeight` (as `Decimal` atomics, floored) to the global
index and records the distributed amount.  No per-member writes. -/
def distribute {n : Nat} (st : EngineState n) (amount : Nat) :
    Except EngineError (EngineState n) :=
  if st.totalWeight = 0 then .error .noEligibleRecipients
  else .ok { st with
              globalIndex := st.globalIndex + amount * SCALE / st.totalWeight,
              distributed := st.distributed + amount }

/-- Modelled from the spec: one weight edit of `updateWeights` (§4.4).  Settle
the member with the old weight, then set the new weight and adjust the total
eligible weight by the change in the member's eligible contribution. -/
def updateWeight {n : Nat} (st : EngineState n) (i : Fin n) (w : Nat) :
    EngineState n :=
  let r := settleRec st.globalIndex st.minWeight (st.members i)
  { st with
      totalWeight := st.totalWeight - eff st.minWeight r.weight + eff st.minWeight w,
      members := Function.update st.members i { r with weight := w } }

/-- Modelled from the spec: `claim` for one member and this asset (§4.5,
agreeing with `claim_rewards` in claim.rs).  A zero global index is skipped
with no write; otherwise the member is settled, the pending amount is paid
out (recorded in the ghost `claimed` field) and pending is reset to zero. -/
def claimMember {n : Nat} (st : EngineState n) (i : Fin n) :
    EngineState n × Nat :=
  if st.globalIndex = 0 then (st, 0)
  else
    let r := settleRec st.globalIndex st.minWeight (st.members i)
    ({ st with
        members := Function.update st.members i
          { r with pending := 0, claimed := r.claimed + r.pending } },
      r.pending)

/-- An engine operation on the fixed asset. -/
inductive Op (n : Nat) : Type
  | distribute (amount : Nat)
  | update (i : Fin n) (w : Nat)
  | claim (i : Fin n)

/-- One atomic host call: on error the host rolls the state back (spec §5), so
a failing `distribute` leaves the state unchanged. -/
def step {n : Nat} (st : EngineState n) : Op n → EngineState n
  | .distribute a =>
      match distribute st a with
      | .ok st' => st'
      | .error _ => st
  | .update i w => updateWeight st i w
  | .claim i => (claimMember st i).1

/-- Run a sequence of engine operations. -/
def runOps {n : Nat} (st : EngineState n) (ops : List (Op n)) : EngineState n :=
  ops.foldl step st

/-- The amount a claim would pay the member right now: pending rewards plus
the floored accrual since the last sync (equals `calculate_user_reward`). -/
def claimableAmt {n : Nat} (st : EngineState n) (i : Fin n) : Nat :=
  let r := st.members i
  r.pending + (st.globalIndex - r.userIndex) * eff st.minWeight r.weight / SCALE

/-- A fresh engine state: given weights, nothing distributed or claimed yet,
total eligible weight consistent with the member weights. -/
def initState (n minW : Nat) (w : Fin n → Nat) : EngineState n where
  globalIndex := 0
  totalWeight := ∑ i, eff minW (w i)
  minWeight := minW
  distributed := 0
  members := fun i => ⟨w i, 0, 0, 0⟩

/-- The sum over all members of the amount already claimed plus the amount
still claimable now. -/
def sumClaimedClaimable {n : Nat} (st : EngineState n) : Nat :=
  ∑ i, ((st.members i).claimed + claimableAmt st i)

/-- The conservation invariant: the total eligible weight is the sum of the
members' eligible contributions, no member index is ahead of the global
index, and — measured in `Decimal` atomics — everything claimed or pending
plus every member's unsettled accrual is bounded by everything distributed. -/
def engineInv {n : Nat} (st : EngineState n) : Prop :=
  st.totalWeight = ∑ i, eff st.minWeight ((st.members i).weight) ∧
  (∀ i, (st.members i).userIndex ≤ st.globalIndex) ∧
  (∑ i, (((st.members i).claimed + (st.members i).pending) * SCALE +
      (st.globalIndex - (st.members i).userIndex) * eff st.minWeight ((st.members i).weight)))
    ≤ st.distributed * SCALE

/-! ## `validate.rs` embedding -/

/-- `DaoType` from `enterprise_protocol`. -/
inductive DaoType : Type
  | denomToken
  | nft
  | multisig
  deriving DecidableEq, Repr

/-- One weight edit of a `ModifyMultisigMembershipMsg`. -/
structure MultisigMember : Type where
  user : String
  weight : Nat
  deriving DecidableEq, Repr

/-- `ModifyMultisigMembershipMsg` from the governance-controller API. -/
structure ModifyMultisigMembershipMsg : Type where
  edit_members : List MultisigMember
  deriving DecidableEq, Repr

/-- The governance-controller errors reachable from the embedded validators. -/
inductive GovernanceControllerError : Type
  | unsupportedOperationForDaoType (dao_type : DaoType)
  | duplicateMultisigMemberWeightEdit
  | invalidAddress (s : String)
  | stdGenericErr (msg : String)
  deriving DecidableEq, Repr

/-- `deps.api.addr_validate` as used by the governance controller. -/
def gcAddrValidate (s : String) : Except GovernanceControllerError String :=
  if isValidAddr s then .ok s else .error (.invalidAddress s)

/-- The member loop of `validate_modify_multisig_membership`
(validate.rs lines 340–351): validate each address, insert it with its weight
into the dedup map, and fail when the insert reports the key already present. -/
def validateMembersLoop (deduped : List (String × Nat)) :
    List MultisigMember → Except GovernanceControllerError Unit
  | [] => .ok ()
  | member :: rest =>
      match gcAddrValidate member.user with
      | .error e => .error e
      | .ok addr =>
          if (lookupAL deduped addr).isSome then
            .error .duplicateMultisigMemberWeightEdit
          else
            validateMembersLoop (insertAL deduped addr member.weight) rest

/-- `validate_modify_multisig_membership` (validate.rs lines 329–354): only a
multisig DAO may modify multisig membership, and no member may appear twice
(after address validation) in one batch. -/
def validate_modify_multisig_membership (dao_type : DaoType)
    (msg : ModifyMultisigMembershipMsg) : Except GovernanceControllerError Unit :=
  if dao_type ≠ DaoType.multisig then
    .error (.unsupportedOperationForDaoType dao_type)
  else
    validateMembersLoop [] msg.edit_members

/-- `cw_asset::AssetInfoBase`; the Rust enum is non-exhaustive, so `other`
stands for any variant matched by the wildcard arm of the validator. -/
inductive AssetInfoBase : Type
  | native (denom : String)
  | cw20 (addr : String)
  | cw1155 (addr : String) (id : String)
  | other
  deriving DecidableEq, Repr

/-- An asset with an amount, as appearing in `DistributeFundsMsg.funds`. -/
structure AssetWithAmount : Type where
  info : AssetInfoBase
  amount : Nat
  deriving DecidableEq, Repr

/-- `DistributeFundsMsg` from the governance-controller API. -/
structure DistributeFundsMsg : Type where
  funds : List AssetWithAmount
  deriving DecidableEq, Repr

/-- The asset loop of `validate_distribute_funds` (validate.rs lines 385–397). -/
def validateFundsLoop :
    List AssetWithAmount → Except GovernanceControllerError Unit
  | [] => .ok ()
  | asset :: rest =>
      match asset.info with
      | .native _ => validateFundsLoop rest
      | .cw20 _ => validateFundsLoop rest
      | .cw1155 _ _ =>
          .error (.stdGenericErr ("cw1155 is not supported at this time"))
      | .other => .error (.stdGenericErr ("unknown asset type"))

/-- `validate_distribute_funds` (validate.rs lines 384–400): native and cw20
assets are supported, cw1155 and any other kind are rejected. -/
def validate_distribute_funds (msg : DistributeFundsMsg) :
    Except GovernanceControllerError Unit :=
  validateFundsLoop msg.funds

/-! ## Concrete sample states used by the witnesses -/

/-- A sample storage: one member with weight 10, a native denom with a
global index of 2 whole units, a native denom never distributed, and a cw20
asset with a global index of 3 whole units. -/
def sampleStorage : Storage where
  effective_user_weights := [("alice", 10)]
  native_distributions := []
  native_global_indices := [("uatom", 2 * SCALE), ("uono", 0)]
  cw20_distributions := []
  cw20_global_indices := [("tokenx", 3 * SCALE)]

/-- `sampleStorage` after `alice` claims the denom `uatom`. -/
def sampleStorageAfter : Storage where
  effective_user_weights := [("alice", 10)]
  native_distributions := [(("alice", "uatom"), ⟨"alice", "uatom", 2 * SCALE, 0⟩)]
  native_global_indices := [("uatom", 2 * SCALE), ("uono", 0)]
  cw20_distributions := []
  cw20_global_indices := [("tokenx", 3 * SCALE)]

/-- A sample engine state: one member of weight 10, nothing distributed yet. -/
def sampleEngine : EngineState 1 where
  globalIndex := 0
  totalWeight := 10
  minWeight := 0
  distributed := 0
  members := fun _ => ⟨10, 0, 0, 0⟩

/-- A sample engine state with zero total eligible weight. -/
def sampleEngineZero : EngineState 1 where
  globalIndex := 0
  totalWeight := 0
  minWeight := 0
  distributed := 0
  members := fun _ => ⟨0, 0, 0, 0⟩

/-! ## Theorems -/

/-- The fund-validation loop accepts lists of native and cw20 assets. -/
theorem validateFundsLoop_ok (l : List AssetWithAmount)
    (h : ∀ a ∈ l,
      (∃ d, a.info = AssetInfoBase.native d) ∨ (∃ c, a.info = AssetInfoBase.cw20 c)) :
    validateFundsLoop l = .ok () := by
  induction l with
  | nil => rfl
  | cons hd tl ih =>
      rcases h hd (List.mem_cons_self hd tl) with ⟨d, hd'⟩ | ⟨c, hd'⟩ <;>
        simp only [validateFundsLoop, hd'] <;>
        exact ih fun a ha => h a (List.mem_cons_of_mem hd ha)

/-- The fund-validation loop rejects any list containing a cw1155 or other
asset kind. -/
theorem validateFundsLoop_err (l : List AssetWithAmount)
    (h : ∃ a ∈ l,
      (∃ ad id, a.info = AssetInfoBase.cw1155 ad id) ∨ a.info = AssetInfoBase.other) :
    ∃ e, validateFundsLoop l = .error e := by
  induction l with
  | nil => simp at h
  | cons hd tl ih =>
      rcases h with ⟨a, ha, hkind⟩
      rcases List.mem_cons.mp ha with rfl | ha'
      · rcases hkind with ⟨ad, id, hinfo⟩ | hinfo
        · refine ⟨.stdGenericErr ("cw1155 is not supported at this time"), ?_⟩
          simp only [validateFundsLoop, hinfo]
        · refine ⟨.stdGenericErr ("unknown asset type"), ?_⟩
          simp only [validateFundsLoop, hinfo]
      · cases hinfo : hd.info with
        | native d => simpa only [validateFundsLoop, hinfo] using ih ⟨a, ha', hkind⟩
        | cw20 c => simpa only [validateFundsLoop, hinfo] using ih ⟨a, ha', hkind⟩
        | cw1155 ad id =>
            refine ⟨.stdGenericErr ("cw1155 is not supported at this time"), ?_⟩
            simp only [validateFundsLoop, hinfo]
        | other =>
            refine ⟨.stdGenericErr ("unknown asset type"), ?_⟩
            simp only [validateFundsLoop, hinfo]

/-- **C9.** Validating a distribute-funds action succeeds for every fund list
containing only native and cw20 assets, and fails with an error for any list
containing a cw1155 or other asset kind (`validate_distribute_funds`,
validate.rs lines 384–400). -/
theorem validate_distribute_funds_kinds (msg : DistributeFundsMsg) :
    ((∀ a ∈ msg.funds,
        (∃ d, a.info = AssetInfoBase.native d) ∨ (∃ c, a.info = AssetInfoBase.cw20 c)) →
      validate_distribute_funds msg = .ok ()) ∧
    ((∃ a ∈ msg.funds,
        (∃ ad id, a.info = AssetInfoBase.cw1155 ad id) ∨ a.info = AssetInfoBase.other) →
      ∃ e, validate_distribute_funds msg = .error e) :=
  ⟨fun h => validateFundsLoop_ok msg.funds h, fun h => validateFundsLoop_err msg.funds h⟩

/-- Witness for C9 at concrete inputs: a native-and-cw20 list validates, a
list containing a cw1155 asset fails. -/
theorem validate_distribute_funds_kinds_witness :
    validate_distribute_funds
        ⟨[⟨AssetInfoBase.native ("uatom"), 5⟩, ⟨AssetInfoBase.cw20 ("tokenx"), 7⟩]⟩ = .ok () ∧
    ∃ e, validate_distribute_funds
        ⟨[⟨AssetInfoBase.cw1155 ("addr") ("1"), 4⟩]⟩ = .error e :=
  ⟨(validate_distribute_funds_kinds _).1
      (by
        intro a ha
        simp only [List.mem_cons, List.not_mem_nil, or_false] at ha
        rcases ha with rfl | rfl
        · exact Or.inl ⟨"uatom", rfl⟩
        · exact Or.inr ⟨"tokenx", rfl⟩),
    (validate_distribute_funds_kinds _).2
      ⟨⟨AssetInfoBase.cw1155 ("addr") ("1"), 4⟩, List.mem_cons_self _ _,
        Or.inl ⟨"addr", "1", rfl⟩⟩⟩

/-- **C6.** `distribute` with zero total eligible weight fails with
`NoEligibleRecipients` and (under the host's rollback, `step`) leaves the
state unchanged; with positive total eligible weight it adds
`amount / TotalEligibleWeight` (floored `Decimal` atomics) to the global index
and performs no per-member writes.  Modelled from spec §4.2. -/
theorem distribute_zero_weight_fails {n : Nat} (st : EngineState n) (a : Nat) :
    (st.totalWeight = 0 →
      distribute st a = .error .noEligibleRecipients ∧
        step st (Op.distribute a) = st) ∧
    (st.totalWeight ≠ 0 →
      distribute st a = .ok
        { st with
            globalIndex := st.globalIndex + a * SCALE / st.totalWeight,
            distributed := st.distributed + a }) := by
  constructor
  · intro h
    refine ⟨by simp [distribute, h], ?_⟩
    simp [step, distribute, h]
  · intro h
    simp [distribute, h]

/-- Witness for C6: distributing to `sampleEngineZero` (total weight 0) fails
and leaves the state unchanged; distributing 50 units to `sampleEngine`
(total weight 10) adds 5 whole units to the global index. -/
theorem distribute_zero_weight_fails_witness :
    (distribute sampleEngineZero 50 = .error .noEligibleRecipients ∧
      step sampleEngineZero (Op.distribute 50) = sampleEngineZero) ∧
    distribute sampleEngine 50 = .ok
      { sampleEngine with
          globalIndex := sampleEngine.globalIndex + 50 * SCALE / sampleEngine.totalWeight,
          distributed := sampleEngine.distributed + 50 } :=
  ⟨(distribute_zero_weight_fails sampleEngineZero 50).1 rfl,
    (distribute_zero_weight_fails sampleEngine 50).2 (by decide)⟩

/-- **C5.** A requested asset whose global index is zero (nothing ever
distributed for it) is skipped by `claim_rewards`: no transfer instruction is
emitted and no storage write happens for that (member, asset) pair — here the
whole storage is returned unchanged (claim.rs lines 30–37 and 63–70). -/
theorem claim_rewards_zero_index_skips (st : Storage) (user denom asset : String)
    (hu : isValidAddr user = true)
    (ha : isValidAddr asset = true)
    (hd : (lookupAL st.native_global_indices denom).getD 0 = 0)
    (hc : (lookupAL st.cw20_global_indices asset).getD 0 = 0) :
    claim_rewards st ⟨user, [denom], []⟩ = .ok (st, []) ∧
    claim_rewards st ⟨user, [], [asset]⟩ = .ok (st, []) := by
  constructor
  · simp [claim_rewards, addrValidate, hu, processNative, hd, Except.pure, pure]
  · simp [claim_rewards, addrValidate, hu, ha, processCw20, hc, Except.bind, bind,
      Except.pure, pure]

/-- Witness for C5: claiming `uono` (native, index 0) and a cw20 asset with
no index returns the storage unchanged with no transfer. -/
theorem claim_rewards_zero_index_skips_witness :
    claim_rewards sampleStorage ⟨"alice", ["uono"], []⟩ = .ok (sampleStorage, []) ∧
    claim_rewards sampleStorage ⟨"alice", [], ["nocoin"]⟩ = .ok (sampleStorage, []) :=
  claim_rewards_zero_index_skips sampleStorage ("alice") ("uono") ("nocoin")
    (by decide) (by decide) (by decide) (by decide)

/-- **C3.** For a requested asset whose global index is nonzero,
`claim_rewards` settles the member — the payout is `calculate_user_reward` of
the global index, the stored record and the member's effective weight — emits
exactly one transfer instruction of that payout to the member if and only if
it is nonzero, and stores a record with zero pending rewards and the last
synced index equal to the current global index (claim.rs lines 39–55 and
72–88). -/
theorem claim_rewards_settles_requested_asset (st : Storage) (user denom asset : String)
    (hu : isValidAddr user = true)
    (ha : isValidAddr asset = true)
    (hgn : (lookupAL st.native_global_indices denom).getD 0 ≠ 0)
    (hgc : (lookupAL st.cw20_global_indices asset).getD 0 ≠ 0) :
    (let g := (lookupAL st.native_global_indices denom).getD 0
     let w := (lookupAL st.effective_user_weights user).getD 0
     let reward := calculate_user_reward g
       ((lookupAL st.native_distributions (user, denom)).map
         fun d => (d.user_index, d.pending_rewards)) w
     claim_rewards st ⟨user, [denom], []⟩ = .ok
       ({ st with native_distributions :=
            insertAL st.native_distributions (user, denom) ⟨user, denom, g, 0⟩ },
        if reward ≠ 0 then [Transfer.native denom reward user] else [])) ∧
    (let g := (lookupAL st.cw20_global_indices asset).getD 0
     let w := (lookupAL st.effective_user_weights user).getD 0
     let reward := calculate_user_reward g
       ((lookupAL st.cw20_distributions (user, asset)).map
         fun d => (d.user_index, d.pending_rewards)) w
     claim_rewards st ⟨user, [], [asset]⟩ = .ok
       ({ st with cw20_distributions :=
            insertAL st.cw20_distributions (user, asset) ⟨user, asset, g, 0⟩ },
        if reward ≠ 0 then [Transfer.cw20 asset reward user] else [])) := by
  constructor
  · simp only []
    simp [claim_rewards, addrValidate, hu, processNative, hgn, Except.pure, pure]
  · simp only []
    simp [claim_rewards, addrValidate, hu, ha, processCw20, hgc, Except.bind, bind,
      Except.pure, pure]

/-- Witness for C3: `alice` (weight 10) claims `uatom` (index 2 whole units,
no prior record): payout 20, one native transfer, record synced at the
current index; and claims `tokenx` (index 3): payout 30, one cw20 transfer. -/
theorem claim_rewards_settles_requested_asset_witness :
    claim_rewards sampleStorage ⟨"alice", ["uatom"], []⟩ =
      .ok (sampleStorageAfter, [Transfer.native ("uatom") 20 ("alice")]) :=
  (claim_rewards_settles_requested_asset sampleStorage ("alice") ("uatom") ("tokenx")
    (by decide) (by decide) (by decide) (by decide)).1

/-- **C7.** Errors are whole-call-atomic.  The host executes each entry point
as an all-or-nothing transaction (spec §5), so when `claim_rewards` returns an
error — in particular on a malformed member address, or on a malformed cw20
asset address reached partway through the asset list — the resulting state is
the pre-call state; likewise a failing `distribute` leaves the engine state
unchanged (`updateWeights` itself has no failing path; its batch validation is
the stateless `validate_modify_multisig_membership`). -/
theorem claim_rewards_error_atomic {n : Nat} (st : Storage) (msg : ClaimRewardsMsg)
    (e : DistributorError) (est : EngineState n) (a : Nat)
    (hclaim : claim_rewards st msg = .error e)
    (hdist : distribute est a = .error .noEligibleRecipients) :
    executeClaimRewards st msg = st ∧ step est (Op.distribute a) = est := by
  constructor
  · unfold executeClaimRewards
    rw [hclaim]
  · simp [step, hdist]

/-- Witness for C7: a claim listing the malformed cw20 address `BAD` after a
valid native denom fails with `invalidAddress` and the executed call leaves
the storage as it was; a distribution with zero total weight leaves the
engine state as it was. -/
theorem claim_rewards_error_atomic_witness :
    claim_rewards sampleStorage ⟨"alice", ["uatom"], ["BAD"]⟩ =
        .error (DistributorError.invalidAddress ("BAD")) ∧
    executeClaimRewards sampleStorage ⟨"alice", ["uatom"], ["BAD"]⟩ = sampleStorage ∧
    step sampleEngineZero (Op.distribute 50) = sampleEngineZero :=
  ⟨rfl,
    (claim_rewards_error_atomic sampleStorage ⟨"alice", ["uatom"], ["BAD"]⟩
      (DistributorError.invalidAddress ("BAD")) sampleEngineZero 50 rfl rfl).1,
    (claim_rewards_error_atomic sampleStorage ⟨"alice", ["uatom"], ["BAD"]⟩
      (DistributorError.invalidAddress ("BAD")) sampleEngineZero 50 rfl rfl).2⟩

/-- A lookup in an insert-updated association list is absent exactly when the
key differs from the inserted one and was absent before. -/
theorem lookupAL_insertAL_eq_none {α β : Type} [DecidableEq α]
    (l : List (α × β)) (k k' : α) (v : β) :
    lookupAL (insertAL l k v) k' = none ↔ (k' ≠ k ∧ lookupAL l k' = none) := by
  by_cases h : k' = k
  · subst h
    simp [lookupAL_insertAL_self]
  · rw [lookupAL_insertAL_ne l k k' v (fun hk => h hk.symm)]
    simp [h]

/-- The member-dedup loop of `validate_modify_multisig_membership` succeeds
exactly when the batch has no repeated user and no user already in the
accumulated dedup map (all addresses assumed valid). -/
theorem validateMembersLoop_ok_iff (l : List MultisigMember)
    (deduped : List (String × Nat))
    (hv : ∀ m ∈ l, isValidAddr m.user = true) :
    validateMembersLoop deduped l = .ok () ↔
      ((l.map MultisigMember.user).Nodup ∧
        ∀ m ∈ l, lookupAL deduped m.user = none) := by
  induction l generalizing deduped with
  | nil => simp [validateMembersLoop]
  | cons m rest ih =>
      have hm : isValidAddr m.user = true := hv m (List.mem_cons_self m rest)
      have hrest : ∀ x ∈ rest, isValidAddr x.user = true :=
        fun x hx => hv x (List.mem_cons_of_mem m hx)
      have haddr : gcAddrValidate m.user = .ok m.user := by
        simp [gcAddrValidate, hm]
      cases hlook : lookupAL deduped m.user with
      | some w =>
          simp only [validateMembersLoop, haddr, hlook, Option.isSome_some, if_true]
          constructor
          · intro h
            exact absurd h (by simp)
          · rintro ⟨-, habs⟩
            exact absurd (habs m (List.mem_cons_self m rest)) (by simp [hlook])
      | none =>
          simp only [validateMembersLoop, haddr, hlook, Option.isSome_none,
            Bool.false_eq_true, if_false, ih _ hrest]
          constructor
          · rintro ⟨hnodup, habs⟩
            refine ⟨?_, ?_⟩
            · simp only [List.map_cons, List.nodup_cons]
              refine ⟨?_, hnodup⟩
              intro hmem
              rcases List.mem_map.mp hmem with ⟨x, hx, hxu⟩
              have := habs x hx
              rw [← hxu] at this
              rw [lookupAL_insertAL_eq_none] at this
              exact this.1 rfl
            · intro x hx
              rcases List.mem_cons.mp hx with rfl | hx'
              · exact hlook
              · exact ((lookupAL_insertAL_eq_none deduped m.user x.user m.weight).mp
                  (habs x hx')).2
          · rintro ⟨hnodup, habs⟩
            simp only [List.map_cons, List.nodup_cons] at hnodup
            refine ⟨hnodup.2, ?_⟩
            intro x hx
            rw [lookupAL_insertAL_eq_none]
            refine ⟨?_, habs x (List.mem_cons_of_mem m hx)⟩
            intro hxu
            exact hnodup.1 (List.mem_map.mpr ⟨x, hx, hxu⟩)

/-- The member-dedup loop either succeeds or fails with precisely the
duplicate-member error (all addresses assumed valid). -/
theorem validateMembersLoop_ok_or_dup (l : List MultisigMember)
    (deduped : List (String × Nat))
    (hv : ∀ m ∈ l, isValidAddr m.user = true) :
    validateMembersLoop deduped l = .ok () ∨
      validateMembersLoop deduped l = .error .duplicateMultisigMemberWeightEdit := by
  induction l generalizing deduped with
  | nil => exact Or.inl rfl
  | cons m rest ih =>
      have hm : isValidAddr m.user = true := hv m (List.mem_cons_self m rest)
      have hrest : ∀ x ∈ rest, isValidAddr x.user = true :=
        fun x hx => hv x (List.mem_cons_of_mem m hx)
      have haddr : gcAddrValidate m.user = .ok m.user := by
        simp [gcAddrValidate, hm]
      cases hlook : lookupAL deduped m.user with
      | some w =>
          simp only [validateMembersLoop, haddr, hlook, Option.isSome_some, if_true]
          exact Or.inr trivial
      | none =>
          simp only [validateMembersLoop, haddr, hlook, Option.isSome_none,
            Bool.false_eq_true, if_false]
          exact ih _ hrest

/-- **C8.** For a multisig DAO and a batch of validated member edits,
`validate_modify_multisig_membership` succeeds exactly when no member appears
twice, and a batch with a repeated member is rejected whole with the
duplicate-member error (validate.rs lines 329–354).  The validator is pure:
rejection means the batch is never applied. -/
theorem validate_modify_multisig_membership_duplicate (msg : ModifyMultisigMembershipMsg)
    (hv : ∀ m ∈ msg.edit_members, isValidAddr m.user = true) :
    (validate_modify_multisig_membership DaoType.multisig msg = .ok () ↔
      (msg.edit_members.map MultisigMember.user).Nodup) ∧
    (¬ (msg.edit_members.map MultisigMember.user).Nodup →
      validate_modify_multisig_membership DaoType.multisig msg =
        .error .duplicateMultisigMemberWeightEdit) := by
  have hred : validate_modify_multisig_membership DaoType.multisig msg =
      validateMembersLoop [] msg.edit_members := by
    simp [validate_modify_multisig_membership]
  have hiff := validateMembersLoop_ok_iff msg.edit_members [] hv
  have hempty : ∀ m ∈ msg.edit_members, lookupAL ([] : List (String × Nat)) m.user = none :=
    fun m _ => rfl
  constructor
  · rw [hred, hiff]
    exact ⟨fun h => h.1, fun h => ⟨h, hempty⟩⟩
  · intro hdup
    rw [hred]
    rcases validateMembersLoop_ok_or_dup msg.edit_members [] hv with hok | herr
    · exact absurd ((hiff.mp hok).1) hdup
    · exact herr

/-- Witness for C8: the batch `[alice ↦ 1, alice ↦ 2]` has valid addresses and
a repeated member, and is rejected with the duplicate-member error. -/
theorem validate_modify_multisig_membership_duplicate_witness :
    validate_modify_multisig_membership DaoType.multisig
        ⟨[⟨"alice", 1⟩, ⟨"alice", 2⟩]⟩ =
      .error .duplicateMultisigMemberWeightEdit :=
  (validate_modify_multisig_membership_duplicate ⟨[⟨"alice", 1⟩, ⟨"alice", 2⟩]⟩
    (by decide)).2 (by decide)

/-- One native-loop iteration only touches the native distribution records. -/
theorem processNative_frame (user : String) (w : Nat)
    (acc : Storage × List Transfer) (d : String) :
    (processNative user w acc d).1.effective_user_weights = acc.1.effective_user_weights ∧
    (processNative user w acc d).1.native_global_indices = acc.1.native_global_indices ∧
    (processNative user w acc d).1.cw20_distributions = acc.1.cw20_distributions ∧
    (processNative user w acc d).1.cw20_global_indices = acc.1.cw20_global_indices := by
  by_cases hg : (lookupAL acc.1.native_global_indices d).getD 0 = 0 <;>
    simp [processNative, hg]

/-- One native-loop iteration leaves records of other keys alone. -/
theorem processNative_lookup_other (user : String) (w : Nat)
    (acc : Storage × List Transfer) (d : String) (key : String × String)
    (h : key ≠ (user, d)) :
    lookupAL (processNative user w acc d).1.native_distributions key =
      lookupAL acc.1.native_distributions key := by
  by_cases hg : (lookupAL acc.1.native_global_indices d).getD 0 = 0
  · simp [processNative, hg]
  · simp only [processNative]
    rw [if_neg hg]
    exact lookupAL_insertAL_ne acc.1.native_distributions (user, d) key _ (Ne.symm h)

/-- One native-loop iteration on a denom with nonzero index stores the synced
zero-pending record for that denom. -/
theorem processNative_lookup_self (user : String) (w : Nat)
    (acc : Storage × List Transfer) (d : String)
    (hg : (lookupAL acc.1.native_global_indices d).getD 0 ≠ 0) :
    lookupAL (processNative user w acc d).1.native_distributions (user, d) =
      some ⟨user, d, (lookupAL acc.1.native_global_indices d).getD 0, 0⟩ := by
  simp only [processNative]
  rw [if_neg hg]
  exact lookupAL_insertAL_self acc.1.native_distributions (user, d) _

/-- The native loop of `claim_rewards`: all other storage is untouched,
records at other keys are untouched, and every requested denom with a nonzero
global index ends with the synced zero-pending record. -/
theorem foldl_processNative_spec (user : String) (w : Nat) (l : List String)
    (acc : Storage × List Transfer) :
    (l.foldl (processNative user w) acc).1.effective_user_weights =
        acc.1.effective_user_weights ∧
    (l.foldl (processNative user w) acc).1.native_global_indices =
        acc.1.native_global_indices ∧
    (l.foldl (processNative user w) acc).1.cw20_distributions =
        acc.1.cw20_distributions ∧
    (l.foldl (processNative user w) acc).1.cw20_global_indices =
        acc.1.cw20_global_indices ∧
    (∀ key : String × String, (key.1 ≠ user ∨ key.2 ∉ l) →
      lookupAL (l.foldl (processNative user w) acc).1.native_distributions key =
        lookupAL acc.1.native_distributions key) ∧
    (∀ d ∈ l, (lookupAL acc.1.native_global_indices d).getD 0 ≠ 0 →
      lookupAL (l.foldl (processNative user w) acc).1.native_distributions (user, d) =
        some ⟨user, d, (lookupAL acc.1.native_global_indices d).getD 0, 0⟩) := by
  induction l generalizing acc with
  | nil =>
      refine ⟨rfl, rfl, rfl, rfl, fun key _ => rfl, fun d hd => absurd hd (by simp)⟩
  | cons a tl ih =>
      obtain ⟨ihw, ihn, ihc, ihcg, ihother, ihrec⟩ := ih (processNative user w acc a)
      obtain ⟨sw, sn, sc, scg⟩ := processNative_frame user w acc a
      rw [List.foldl_cons]
      refine ⟨ihw.trans sw, ihn.trans sn, ihc.trans sc, ihcg.trans scg, ?_, ?_⟩
      · intro key hkey
        have hne : key ≠ (user, a) := by
          rcases hkey with h1 | h2
          · intro hk
            exact h1 (by rw [hk])
          · intro hk
            exact h2 (by rw [hk]; exact List.mem_cons_self a tl)
        have hkey' : key.1 ≠ user ∨ key.2 ∉ tl := by
          rcases hkey with h1 | h2
          · exact Or.inl h1
          · exact Or.inr fun hmem => h2 (List.mem_cons_of_mem a hmem)
        rw [ihother key hkey', processNative_lookup_other user w acc a key hne]
      · intro d hd hg
        by_cases hdtl : d ∈ tl
        · have := ihrec d hdtl (by rw [sn]; exact hg)
          rw [sn] at this
          exact this
        · have hda : d = a := by
            rcases List.mem_cons.mp hd with h | h
            · exact h
            · exact absurd h hdtl
          subst hda
          have hself := processNative_lookup_self user w acc d hg
          have hother := ihother (user, d) (Or.inr hdtl)
          rw [hother, hself]

/-- One cw20-loop iteration on a valid asset address succeeds, touches only
the cw20 distribution records, leaves other keys alone, and on a nonzero
index stores the synced zero-pending record. -/
theorem processCw20_ok (user : String) (w : Nat)
    (acc : Storage × List Transfer) (a : String) (ha : isValidAddr a = true) :
    ∃ acc', processCw20 user w acc a = .ok acc' ∧
      acc'.1.effective_user_weights = acc.1.effective_user_weights ∧
      acc'.1.native_distributions = acc.1.native_distributions ∧
      acc'.1.native_global_indices = acc.1.native_global_indices ∧
      acc'.1.cw20_global_indices = acc.1.cw20_global_indices ∧
      (∀ key : String × String, key ≠ (user, a) →
        lookupAL acc'.1.cw20_distributions key = lookupAL acc.1.cw20_distributions key) ∧
      ((lookupAL acc.1.cw20_global_indices a).getD 0 ≠ 0 →
        lookupAL acc'.1.cw20_distributions (user, a) =
          some ⟨user, a, (lookupAL acc.1.cw20_global_indices a).getD 0, 0⟩) := by
  have haddr : addrValidate a = .ok a := by simp [addrValidate, ha]
  by_cases hg : (lookupAL acc.1.cw20_global_indices a).getD 0 = 0
  · refine ⟨(acc.1, acc.2), ?_, rfl, rfl, rfl, rfl, fun key _ => rfl, fun h => absurd hg h⟩
    unfold processCw20
    rw [haddr]
    simp [hg]
  · refine ⟨({ acc.1 with
        cw20_distributions := insertAL acc.1.cw20_distributions (user, a)
          ⟨user, a, (lookupAL acc.1.cw20_global_indices a).getD 0, 0⟩ },
      if calculate_user_reward ((lookupAL acc.1.cw20_global_indices a).getD 0)
          ((lookupAL acc.1.cw20_distributions (user, a)).map
            fun d => (d.user_index, d.pending_rewards)) w ≠ 0
      then acc.2 ++ [Transfer.cw20 a (calculate_user_reward
          ((lookupAL acc.1.cw20_global_indices a).getD 0)
          ((lookupAL acc.1.cw20_distributions (user, a)).map
            fun d => (d.user_index, d.pending_rewards)) w) user]
      else acc.2), ?_, rfl, rfl, rfl, rfl, ?_, ?_⟩
    · unfold processCw20
      rw [haddr]
      simp [hg]
    · intro key hkey
      exact lookupAL_insertAL_ne acc.1.cw20_distributions (user, a) key _ (Ne.symm hkey)
    · intro _
      exact lookupAL_insertAL_self acc.1.cw20_distributions (user, a) _

/-- The cw20 loop of `claim_rewards` on valid asset addresses: the fold
succeeds, all other storage is untouched, records at other keys are
untouched, and every requested asset with a nonzero global index ends with
the synced zero-pending record. -/
theorem foldlM_processCw20_spec (user : String) (w : Nat) (l : List String)
    (acc : Storage × List Transfer)
    (hv : ∀ a ∈ l, isValidAddr a = true) :
    ∃ res, l.foldlM (processCw20 user w) acc = .ok res ∧
      res.1.effective_user_weights = acc.1.effective_user_weights ∧
      res.1.native_distributions = acc.1.native_distributions ∧
      res.1.native_global_indices = acc.1.native_global_indices ∧
      res.1.cw20_global_indices = acc.1.cw20_global_indices ∧
      (∀ key : String × String, (key.1 ≠ user ∨ key.2 ∉ l) →
        lookupAL res.1.cw20_distributions key = lookupAL acc.1.cw20_distributions key) ∧
      (∀ a ∈ l, (lookupAL acc.1.cw20_global_indices a).getD 0 ≠ 0 →
        lookupAL res.1.cw20_distributions (user, a) =
          some ⟨user, a, (lookupAL acc.1.cw20_global_indices a).getD 0, 0⟩) := by
  induction l generalizing acc with
  | nil =>
      exact ⟨acc, rfl, rfl, rfl, rfl, rfl, fun key _ => rfl, fun a ha => absurd ha (by simp)⟩
  | cons a tl ih =>
      have ha : isValidAddr a = true := hv a (List.mem_cons_self a tl)
      have htl : ∀ x ∈ tl, isValidAddr x = true :=
        fun x hx => hv x (List.mem_cons_of_mem a hx)
      obtain ⟨acc', hstep, sw, sn, sni, scg, sother, sself⟩ := processCw20_ok user w acc a ha
      obtain ⟨res, hres, ihw, ihn, ihni, ihcg, ihother, ihrec⟩ := ih acc' htl
      refine ⟨res, ?_, ihw.trans sw, ihn.trans sn, ihni.trans sni, ihcg.trans scg, ?_, ?_⟩
      · rw [List.foldlM_cons, hstep]
        simpa using hres
      · intro key hkey
        have hne : key ≠ (user, a) := by
          rcases hkey with h1 | h2
          · intro hk
            exact h1 (by rw [hk])
          · intro hk
            exact h2 (by rw [hk]; exact List.mem_cons_self a tl)
        have hkey' : key.1 ≠ user ∨ key.2 ∉ tl := by
          rcases hkey with h1 | h2
          · exact Or.inl h1
          · exact Or.inr fun hmem => h2 (List.mem_cons_of_mem a hmem)
        rw [ihother key hkey', sother key hne]
      · intro d hd hg
        by_cases hdtl : d ∈ tl
        · have := ihrec d hdtl (by rw [scg]; exact hg)
          rw [scg] at this
          exact this
        · have hda : d = a := by
            rcases List.mem_cons.mp hd with h | h
            · exact h
            · exact absurd h hdtl
          subst hda
          rw [ihother (user, d) (Or.inr hdtl), sself hg]

/-- A native-loop iteration is the identity when the denom's index is zero or
the stored record is already synced with zero pending rewards. -/
theorem processNative_id (user : String) (w : Nat) (st : Storage)
    (msgs : List Transfer) (a : String)
    (h : (lookupAL st.native_global_indices a).getD 0 = 0 ∨
      lookupAL st.native_distributions (user, a) =
        some ⟨user, a, (lookupAL st.native_global_indices a).getD 0, 0⟩) :
    processNative user w (st, msgs) a = (st, msgs) := by
  by_cases hg : (lookupAL st.native_global_indices a).getD 0 = 0
  · simp [processNative, hg]
  · have hrec : lookupAL st.native_distributions (user, a) =
        some ⟨user, a, (lookupAL st.native_global_indices a).getD 0, 0⟩ := by
      rcases h with h0 | h1
      · exact absurd h0 hg
      · exact h1
    simp only [processNative]
    rw [if_neg hg]
    simp [calculate_user_reward, hrec, insertAL_eq_of_lookupAL _ _ _ hrec]

/-- The native loop is the identity on storage already synced for every
requested denom. -/
theorem foldl_processNative_id (user : String) (w : Nat) (l : List String)
    (st : Storage) (msgs : List Transfer)
    (h : ∀ a ∈ l, (lookupAL st.native_global_indices a).getD 0 = 0 ∨
      lookupAL st.native_distributions (user, a) =
        some ⟨user, a, (lookupAL st.native_global_indices a).getD 0, 0⟩) :
    l.foldl (processNative user w) (st, msgs) = (st, msgs) := by
  induction l with
  | nil => rfl
  | cons a tl ih =>
      rw [List.foldl_cons, processNative_id user w st msgs a (h a (List.mem_cons_self a tl))]
      exact ih fun x hx => h x (List.mem_cons_of_mem a hx)

/-- A cw20-loop iteration is the identity when the asset address is valid and
its index is zero or the stored record is already synced with zero pending. -/
theorem processCw20_id (user : String) (w : Nat) (st : Storage)
    (msgs : List Transfer) (a : String) (ha : isValidAddr a = true)
    (h : (lookupAL st.cw20_global_indices a).getD 0 = 0 ∨
      lookupAL st.cw20_distributions (user, a) =
        some ⟨user, a, (lookupAL st.cw20_global_indices a).getD 0, 0⟩) :
    processCw20 user w (st, msgs) a = .ok (st, msgs) := by
  have haddr : addrValidate a = .ok a := by simp [addrValidate, ha]
  by_cases hg : (lookupAL st.cw20_global_indices a).getD 0 = 0
  · simp [processCw20, haddr, hg]
  · have hrec : lookupAL st.cw20_distributions (user, a) =
        some ⟨user, a, (lookupAL st.cw20_global_indices a).getD 0, 0⟩ := by
      rcases h with h0 | h1
      · exact absurd h0 hg
      · exact h1
    simp only [processCw20, haddr]
    rw [if_neg hg]
    simp [calculate_user_reward, hrec, insertAL_eq_of_lookupAL _ _ _ hrec]

/-- The cw20 loop is the identity on storage already synced for every
requested asset with a valid address. -/
theorem foldlM_processCw20_id (user : String) (w : Nat) (l : List String)
    (st : Storage) (msgs : List Transfer)
    (hv : ∀ a ∈ l, isValidAddr a = true)
    (h : ∀ a ∈ l, (lookupAL st.cw20_global_indices a).getD 0 = 0 ∨
      lookupAL st.cw20_distributions (user, a) =
        some ⟨user, a, (lookupAL st.cw20_global_indices a).getD 0, 0⟩) :
    l.foldlM (processCw20 user w) (st, msgs) = .ok (st, msgs) := by
  induction l with
  | nil => rfl
  | cons a tl ih =>
      rw [List.foldlM_cons,
        processCw20_id user w st msgs a (hv a (List.mem_cons_self a tl))
          (h a (List.mem_cons_self a tl))]
      simpa using ih (fun x hx => hv x (List.mem_cons_of_mem a hx))
        (fun x hx => h x (List.mem_cons_of_mem a hx))

/-- A successful cw20 fold means every requested asset address was valid. -/
theorem foldlM_processCw20_ok_valid (user : String) (w : Nat) (l : List String)
    (acc res : Storage × List Transfer)
    (h : l.foldlM (processCw20 user w) acc = .ok res) :
    ∀ a ∈ l, isValidAddr a = true := by
  induction l generalizing acc with
  | nil => intro a ha; exact absurd ha (by simp)
  | cons a tl ih =>
      intro x hx
      by_cases ha : isValidAddr a = true
      · rcases List.mem_cons.mp hx with rfl | hx'
        · exact ha
        · obtain ⟨acc', hstep, -⟩ := processCw20_ok user w acc a ha
          rw [List.foldlM_cons, hstep] at h
          exact ih acc' (by simpa using h) x hx'
      · exfalso
        have herr : processCw20 user w acc a =
            .error (.invalidAddress a) := by
          have : addrValidate a = .error (.invalidAddress a) := by
            simp [addrValidate, ha]
          simp [processCw20, this]
        rw [List.foldlM_cons, herr] at h
        simp [Except.bind, bind] at h

/-- **C10.** `claim_rewards` never fails for a member with no stored weight:
the effective weight defaults to zero and the call succeeds; for each
requested asset with nonzero global index it still writes (creates or
overwrites) a distribution record with zero pending rewards and the last
synced index set to the current global index, even though the computed
reward is zero (claim.rs lines 21–23, 46–55, 79–88). -/
theorem claim_rewards_missing_weight_succeeds (st : Storage) (msg : ClaimRewardsMsg)
    (hu : isValidAddr msg.user = true)
    (hw : lookupAL st.effective_user_weights msg.user = none)
    (hv : ∀ a ∈ msg.cw20_assets, isValidAddr a = true) :
    ∃ st' msgs, claim_rewards st msg = .ok (st', msgs) ∧
      (∀ d ∈ msg.native_denoms, (lookupAL st.native_global_indices d).getD 0 ≠ 0 →
        lookupAL st'.native_distributions (msg.user, d) =
          some ⟨msg.user, d, (lookupAL st.native_global_indices d).getD 0, 0⟩) ∧
      (∀ a ∈ msg.cw20_assets, (lookupAL st.cw20_global_indices a).getD 0 ≠ 0 →
        lookupAL st'.cw20_distributions (msg.user, a) =
          some ⟨msg.user, a, (lookupAL st.cw20_global_indices a).getD 0, 0⟩) := by
  have haddr : addrValidate msg.user = .ok msg.user := by simp [addrValidate, hu]
  obtain ⟨nw, nn, nc, ncg, nother, nrec⟩ :=
    foldl_processNative_spec msg.user ((lookupAL st.effective_user_weights msg.user).getD 0)
      msg.native_denoms (st, [])
  obtain ⟨res, hres, cw, cn, cni, ccg, cother, crec⟩ :=
    foldlM_processCw20_spec msg.user ((lookupAL st.effective_user_weights msg.user).getD 0)
      msg.cw20_assets
      (msg.native_denoms.foldl
        (processNative msg.user ((lookupAL st.effective_user_weights msg.user).getD 0))
        (st, [])) hv
  refine ⟨res.1, res.2, ?_, ?_, ?_⟩
  · simp only [claim_rewards, haddr]
    rw [hres]
  · intro d hd hg
    rw [cn]
    exact nrec d hd hg
  · intro a ha hg
    rw [ncg] at crec
    exact crec a ha hg

/-- Witness for C10: `bob` has no stored weight; claiming `uatom` and
`tokenx` succeeds and writes synced zero-pending records for both. -/
theorem claim_rewards_missing_weight_succeeds_witness :
    ∃ st' msgs,
      claim_rewards sampleStorage ⟨"bob", ["uatom"], ["tokenx"]⟩ = .ok (st', msgs) ∧
      (∀ d ∈ ["uatom"],
        (lookupAL sampleStorage.native_global_indices d).getD 0 ≠ 0 →
        lookupAL st'.native_distributions ("bob", d) =
          some ⟨"bob", d, (lookupAL sampleStorage.native_global_indices d).getD 0, 0⟩) ∧
      (∀ a ∈ ["tokenx"],
        (lookupAL sampleStorage.cw20_global_indices a).getD 0 ≠ 0 →
        lookupAL st'.cw20_distributions ("bob", a) =
          some ⟨"bob", a, (lookupAL sampleStorage.cw20_global_indices a).getD 0, 0⟩) :=
  claim_rewards_missing_weight_succeeds sampleStorage ⟨"bob", ["uatom"], ["tokenx"]⟩
    (by decide) (by decide) (by decide)

/-- **C4.** Claim is idempotent: if a claim succeeds, repeating it with no
intervening distribution or weight change emits no transfer instruction and
leaves the storage unchanged (claim.rs lines 18–92; the first call's payout
transfer is the C3 theorem). -/
theorem claim_rewards_idempotent (st st₁ : Storage) (msg : ClaimRewardsMsg)
    (msgs₁ : List Transfer)
    (h : claim_rewards st msg = .ok (st₁, msgs₁)) :
    claim_rewards st₁ msg = .ok (st₁, []) := by
  by_cases hu : isValidAddr msg.user = true
  case neg =>
    exfalso
    have : addrValidate msg.user = .error (.invalidAddress msg.user) := by
      simp [addrValidate, hu]
    simp [claim_rewards, this] at h
  have haddr : addrValidate msg.user = .ok msg.user := by simp [addrValidate, hu]
  simp only [claim_rewards, haddr] at h
  have hv : ∀ a ∈ msg.cw20_assets, isValidAddr a = true :=
    foldlM_processCw20_ok_valid _ _ _ _ _ h
  obtain ⟨nw, nn, nc, ncg, nother, nrec⟩ :=
    foldl_processNative_spec msg.user ((lookupAL st.effective_user_weights msg.user).getD 0)
      msg.native_denoms (st, [])
  obtain ⟨res, hres, cw, cn, cni, ccg, cother, crec⟩ :=
    foldlM_processCw20_spec msg.user ((lookupAL st.effective_user_weights msg.user).getD 0)
      msg.cw20_assets
      (msg.native_denoms.foldl
        (processNative msg.user ((lookupAL st.effective_user_weights msg.user).getD 0))
        (st, [])) hv
  rw [hres] at h
  have hst₁ : st₁ = res.1 := by
    injection h with h1
    rw [h1]
  rw [hst₁]
  have hidx_n : res.1.native_global_indices = st.native_global_indices := cni.trans nn
  have hidx_c : res.1.cw20_global_indices = st.cw20_global_indices := ccg.trans ncg
  have hrec_n : ∀ d ∈ msg.native_denoms,
      (lookupAL res.1.native_global_indices d).getD 0 = 0 ∨
      lookupAL res.1.native_distributions (msg.user, d) =
        some ⟨msg.user, d, (lookupAL res.1.native_global_indices d).getD 0, 0⟩ := by
    intro d hd
    rw [hidx_n]
    by_cases hg : (lookupAL st.native_global_indices d).getD 0 = 0
    · exact Or.inl hg
    · refine Or.inr ?_
      rw [cn]
      exact nrec d hd hg
  have hrec_c : ∀ a ∈ msg.cw20_assets,
      (lookupAL res.1.cw20_global_indices a).getD 0 = 0 ∨
      lookupAL res.1.cw20_distributions (msg.user, a) =
        some ⟨msg.user, a, (lookupAL res.1.cw20_global_indices a).getD 0, 0⟩ := by
    intro a ha
    rw [hidx_c]
    by_cases hg : (lookupAL st.cw20_global_indices a).getD 0 = 0
    · exact Or.inl hg
    · refine Or.inr ?_
      rw [ncg] at crec
      exact crec a ha hg
  simp only [claim_rewards, haddr]
  rw [foldl_processNative_id _ _ _ _ _ hrec_n]
  exact foldlM_processCw20_id _ _ _ _ _ hv hrec_c

/-- Witness for C4: after `alice` claims `uatom` from `sampleStorage`
(transfer of 20), the repeated claim emits no transfer and leaves the
storage `sampleStorageAfter` unchanged. -/
theorem claim_rewards_idempotent_witness :
    claim_rewards sampleStorageAfter ⟨"alice", ["uatom"], []⟩ =
      .ok (sampleStorageAfter, []) :=
  claim_rewards_idempotent sampleStorage sampleStorageAfter ⟨"alice", ["uatom"], []⟩
    [Transfer.native ("uatom") 20 ("alice")] rfl

/-- A distribution step never touches members or the minimum weight, and
never decreases the global index. -/
theorem step_distribute_facts {n : Nat} (st : EngineState n) (a : Nat) :
    (step st (Op.distribute a)).members = st.members ∧
    (step st (Op.distribute a)).minWeight = st.minWeight ∧
    st.globalIndex ≤ (step st (Op.distribute a)).globalIndex := by
  by_cases h : st.totalWeight = 0 <;>
    simp [step, distribute, h]

/-- A weight-update step keeps the global index and minimum weight, and sets
the edited member to its settled record with the new weight. -/
theorem step_update_facts {n : Nat} (st : EngineState n) (i : Fin n) (w : Nat) :
    (step st (Op.update i w)).globalIndex = st.globalIndex ∧
    (step st (Op.update i w)).minWeight = st.minWeight ∧
    (step st (Op.update i w)).members i =
      { settleRec st.globalIndex st.minWeight (st.members i) with weight := w } := by
  refine ⟨rfl, rfl, ?_⟩
  simp [step, updateWeight]

/-- **C1.** Settle-before-mutate.  Modelled from spec §4.3–§4.4: starting
from any state in which member `i` is settled (its record index equals the
global index) and eligible, after a distribution `D1`, a weight update of `i`
to `w2` (also eligible), and a distribution `D2`, the member's claimable
amount has grown by `D1`'s index delta times the *old* weight plus `D2`'s
index delta times the *new* weight — reward for each interval is computed
with the weight held throughout that interval. -/
theorem settle_before_mutate {n : Nat} (st : EngineState n) (i : Fin n)
    (a1 w2 a2 : Nat)
    (hsync : (st.members i).userIndex = st.globalIndex)
    (h1 : st.minWeight ≤ (st.members i).weight)
    (h2 : st.minWeight ≤ w2) :
    claimableAmt
        (step (step (step st (Op.distribute a1)) (Op.update i w2)) (Op.distribute a2)) i =
      (st.members i).pending
        + ((step st (Op.distribute a1)).globalIndex - st.globalIndex)
            * (st.members i).weight / SCALE
        + ((step (step (step st (Op.distribute a1)) (Op.update i w2))
              (Op.distribute a2)).globalIndex
            - (step (step st (Op.distribute a1)) (Op.update i w2)).globalIndex)
            * w2 / SCALE := by
  obtain ⟨hm1, hmin1, hle1⟩ := step_distribute_facts st a1
  obtain ⟨hG2, hmin2, hmem2⟩ := step_update_facts (step st (Op.distribute a1)) i w2
  obtain ⟨hm3, hmin3, hle3⟩ :=
    step_distribute_facts (step (step st (Op.distribute a1)) (Op.update i w2)) a2
  rw [hm1] at hmem2
  unfold claimableAmt
  rw [hm3, hmem2, hmin3, hmin2, hmin1, hG2]
  by_cases hg1 : (step st (Op.distribute a1)).globalIndex = 0
  · have hG0 : st.globalIndex = 0 := Nat.le_zero.mp (hg1 ▸ hle1)
    rw [hg1, hG0]
    simp [settleRec, eff, h2, hsync, hG0]
  · simp only [settleRec, if_neg hg1]
    simp only [eff, if_pos h1, if_pos h2]
    rw [hsync]

/-- Witness for C1: one member of weight 10 in a fresh state; distribute 50
(index delta 5 units), update the weight to 20, distribute 40 (index delta 2
units): the claimable amount is 5·10 + 2·20 = 90. -/
theorem settle_before_mutate_witness :
    (sampleEngine.members 0).userIndex = sampleEngine.globalIndex ∧
    sampleEngine.minWeight ≤ (sampleEngine.members 0).weight ∧
    sampleEngine.minWeight ≤ 20 ∧
    claimableAmt
        (step (step (step sampleEngine (Op.distribute 50)) (Op.update 0 20))
          (Op.distribute 40)) 0 =
      (sampleEngine.members 0).pending
        + ((step sampleEngine (Op.distribute 50)).globalIndex - sampleEngine.globalIndex)
            * (sampleEngine.members 0).weight / SCALE
        + ((step (step (step sampleEngine (Op.distribute 50)) (Op.update 0 20))
              (Op.distribute 40)).globalIndex
            - (step (step sampleEngine (Op.distribute 50)) (Op.update 0 20)).globalIndex)
            * 20 / SCALE :=
  ⟨rfl, Nat.zero_le _, Nat.zero_le _,
    settle_before_mutate sampleEngine 0 50 20 40 rfl (Nat.zero_le _) (Nat.zero_le _)⟩

/-- Replacing one summand by a smaller value cannot increase a sum. -/
theorem sum_update_le_sum {n : Nat} (F : Fin n → Nat) (i : Fin n) (b : Nat)
    (hb : b ≤ F i) :
    (∑ j, Function.update F i b j) ≤ ∑ j, F j := by
  rw [Finset.sum_update_of_mem (Finset.mem_univ i), ← Finset.erase_eq]
  calc b + ∑ j ∈ Finset.univ.erase i, F j
      ≤ F i + ∑ j ∈ Finset.univ.erase i, F j :=
        Nat.add_le_add_right hb _
    _ = ∑ j, F j := Finset.add_sum_erase _ _ (Finset.mem_univ i)

/-- Updating one summand changes a sum by removing the old value and adding
the new one. -/
theorem sum_update_eq_sub_add {n : Nat} (g : Fin n → Nat) (i : Fin n) (b : Nat) :
    (∑ j, g j) - g i + b = ∑ j, Function.update g i b j := by
  rw [Finset.sum_update_of_mem (Finset.mem_univ i), ← Finset.erase_eq,
    ← Finset.add_sum_erase _ g (Finset.mem_univ i), Nat.add_sub_cancel_left,
    Nat.add_comm]

/-- Summing a member statistic after one member is replaced: subtract the old
member's contribution and add the new one. -/
theorem sum_comp_update {n : Nat} (φ : MemberRec → Nat) (members : Fin n → MemberRec)
    (i : Fin n) (m' : MemberRec) :
    (∑ j, φ (Function.update members i m' j)) =
      (∑ j, φ (members j)) - φ (members i) + φ m' := by
  have hpt : ∀ j, φ (Function.update members i m' j) =
      Function.update (fun j => φ (members j)) i (φ m') j :=
    fun j => Function.apply_update (fun _ m => φ m) members i m' j
  rw [Finset.sum_congr rfl fun j _ => hpt j, ← sum_update_eq_sub_add]

/-- One member's statistic is at most the sum over all members. -/
theorem single_le_sum_fin {n : Nat} (g : Fin n → Nat) (i : Fin n) :
    g i ≤ ∑ j, g j :=
  Finset.single_le_sum (fun j _ => Nat.zero_le (g j)) (Finset.mem_univ i)

/-- Settlement facts: `settleRec` keeps weight and claimed, never moves the
member index past the global index, zeroes the unsettled gap, and — in
atomics — the settled claimed-plus-pending is bounded by the unsettled one
plus the unsettled accrual. -/
theorem settleRec_facts (g minW : Nat) (r : MemberRec) (hui : r.userIndex ≤ g) :
    (settleRec g minW r).weight = r.weight ∧
    (settleRec g minW r).claimed = r.claimed ∧
    (settleRec g minW r).userIndex ≤ g ∧
    g - (settleRec g minW r).userIndex = 0 ∧
    ((settleRec g minW r).claimed + (settleRec g minW r).pending) * SCALE ≤
      (r.claimed + r.pending) * SCALE + (g - r.userIndex) * eff minW r.weight := by
  by_cases hg : g = 0
  · subst hg
    have hui0 : r.userIndex = 0 := Nat.le_zero.mp hui
    have hr : settleRec 0 minW r = r := by simp [settleRec]
    rw [hr]
    exact ⟨rfl, rfl, hui, by omega, Nat.le_add_right _ _⟩
  · simp only [settleRec, if_neg hg]
    refine ⟨by trivial, by trivial, Nat.le_refl g, by omega, ?_⟩
    calc (r.claimed + (r.pending + (g - r.userIndex) * eff minW r.weight / SCALE)) * SCALE
        = (r.claimed + r.pending) * SCALE
            + (g - r.userIndex) * eff minW r.weight / SCALE * SCALE := by ring
      _ ≤ (r.claimed + r.pending) * SCALE + (g - r.userIndex) * eff minW r.weight :=
        Nat.add_le_add_left (Nat.div_mul_le_self _ _) _

/-- The conservation invariant holds in a fresh engine state. -/
theorem engineInv_init (n minW : Nat) (w : Fin n → Nat) :
    engineInv (initState n minW w) := by
  refine ⟨rfl, fun i => Nat.le_refl 0, ?_⟩
  simp [initState]

/-- The conservation invariant is preserved by every engine step. -/
theorem engineInv_step {n : Nat} (st : EngineState n) (op : Op n)
    (h : engineInv st) : engineInv (step st op) := by
  obtain ⟨hT, hui, hsum⟩ := h
  cases op with
  | distribute a =>
      by_cases ht : st.totalWeight = 0
      · simpa [step, distribute, ht] using ⟨hT, hui, hsum⟩
      · have hred : step st (Op.distribute a) =
            { st with
                globalIndex := st.globalIndex + a * SCALE / st.totalWeight,
                distributed := st.distributed + a } := by
          simp [step, distribute, ht]
        rw [hred]
        refine ⟨hT, fun i => Nat.le_trans (hui i) (Nat.le_add_right _ _), ?_⟩
        have hterm : ∀ i : Fin n,
            ((st.members i).claimed + (st.members i).pending) * SCALE +
              (st.globalIndex + a * SCALE / st.totalWeight - (st.members i).userIndex)
                * eff st.minWeight ((st.members i).weight)
            = (((st.members i).claimed + (st.members i).pending) * SCALE +
                (st.globalIndex - (st.members i).userIndex)
                  * eff st.minWeight ((st.members i).weight))
              + a * SCALE / st.totalWeight * eff st.minWeight ((st.members i).weight) := by
          intro i
          have h2 : st.globalIndex + a * SCALE / st.totalWeight - (st.members i).userIndex
              = st.globalIndex - (st.members i).userIndex + a * SCALE / st.totalWeight :=
            Nat.sub_add_comm (hui i)
          rw [h2, Nat.add_mul]
          ring
        rw [Finset.sum_congr rfl fun i _ => hterm i, Finset.sum_add_distrib,
          ← Finset.mul_sum, ← hT, Nat.add_mul]
        exact Nat.add_le_add hsum (Nat.div_mul_le_self _ _)
  | update i w =>
      obtain ⟨hwt, hcl, hule, hgap, hbound⟩ :=
        settleRec_facts st.globalIndex st.minWeight (st.members i) (hui i)
      simp only [step, updateWeight, engineInv]
      set r := settleRec st.globalIndex st.minWeight (st.members i) with hr
      refine ⟨?_, ?_, ?_⟩
      · have h1 : (∑ j, eff st.minWeight
              ((Function.update st.members i { r with weight := w } j).weight))
            = (∑ j, eff st.minWeight ((st.members j).weight))
              - eff st.minWeight ((st.members i).weight) + eff st.minWeight w :=
          sum_comp_update (fun m => eff st.minWeight m.weight) st.members i
            { r with weight := w }
        rw [h1, hT, hwt]
      · intro j
        by_cases hj : j = i
        · subst hj
          simpa using hule
        · simpa [Function.update_noteq hj] using hui j
      · have h2 : (∑ j,
              (((Function.update st.members i { r with weight := w } j).claimed
                + (Function.update st.members i { r with weight := w } j).pending) * SCALE +
                (st.globalIndex
                    - (Function.update st.members i { r with weight := w } j).userIndex)
                  * eff st.minWeight
                      ((Function.update st.members i { r with weight := w } j).weight)))
            = (∑ j, (((st.members j).claimed + (st.members j).pending) * SCALE +
                (st.globalIndex - (st.members j).userIndex)
                  * eff st.minWeight ((st.members j).weight)))
              - (((st.members i).claimed + (st.members i).pending) * SCALE +
                (st.globalIndex - (st.members i).userIndex)
                  * eff st.minWeight ((st.members i).weight))
              + ((r.claimed + r.pending) * SCALE +
                (st.globalIndex - r.userIndex) * eff st.minWeight w) :=
          sum_comp_update
            (fun m => (m.claimed + m.pending) * SCALE +
              (st.globalIndex - m.userIndex) * eff st.minWeight m.weight)
            st.members i { r with weight := w }
        rw [h2, hgap, Nat.zero_mul, Nat.add_zero]
        have hFi : ((st.members i).claimed + (st.members i).pending) * SCALE +
            (st.globalIndex - (st.members i).userIndex)
              * eff st.minWeight ((st.members i).weight)
            ≤ ∑ j, (((st.members j).claimed + (st.members j).pending) * SCALE +
                (st.globalIndex - (st.members j).userIndex)
                  * eff st.minWeight ((st.members j).weight)) :=
          single_le_sum_fin
            (fun j => ((st.members j).claimed + (st.members j).pending) * SCALE +
              (st.globalIndex - (st.members j).userIndex)
                * eff st.minWeight ((st.members j).weight)) i
        omega
  | claim i =>
      by_cases hG : st.globalIndex = 0
      · simpa [step, claimMember, hG] using ⟨hT, hui, hsum⟩
      · obtain ⟨hwt, hcl, hule, hgap, hbound⟩ :=
          settleRec_facts st.globalIndex st.minWeight (st.members i) (hui i)
        simp only [step, claimMember, hG, if_neg, ite_false, engineInv]
        set r := settleRec st.globalIndex st.minWeight (st.members i) with hr
        refine ⟨?_, ?_, ?_⟩
        · have h1 : (∑ j, eff st.minWeight
                ((Function.update st.members i
                  { r with pending := 0, claimed := r.claimed + r.pending } j).weight))
              = (∑ j, eff st.minWeight ((st.members j).weight))
                - eff st.minWeight ((st.members i).weight)
                + eff st.minWeight r.weight :=
            sum_comp_update (fun m => eff st.minWeight m.weight) st.members i
              { r with pending := 0, claimed := r.claimed + r.pending }
          rw [h1, hwt, hT]
          exact (Nat.sub_add_cancel (single_le_sum_fin
            (fun j => eff st.minWeight ((st.members j).weight)) i)).symm
        · intro j
          by_cases hj : j = i
          · subst hj
            simpa using hule
          · simpa [Function.update_noteq hj] using hui j
        · have h2 : (∑ j,
                (((Function.update st.members i
                    { r with pending := 0, claimed := r.claimed + r.pending } j).claimed
                  + (Function.update st.members i
                    { r with pending := 0, claimed := r.claimed + r.pending } j).pending)
                  * SCALE +
                  (st.globalIndex
                      - (Function.update st.members i
                        { r with pending := 0, claimed := r.claimed + r.pending } j).userIndex)
                    * eff st.minWeight
                        ((Function.update st.members i
                          { r with pending := 0, claimed := r.claimed + r.pending } j).weight)))
              = (∑ j, (((st.members j).claimed + (st.members j).pending) * SCALE +
                  (st.globalIndex - (st.members j).userIndex)
                    * eff st.minWeight ((st.members j).weight)))
                - (((st.members i).claimed + (st.members i).pending) * SCALE +
                  (st.globalIndex - (st.members i).userIndex)
                    * eff st.minWeight ((st.members i).weight))
                + ((r.claimed + r.pending + 0) * SCALE +
                  (st.globalIndex - r.userIndex) * eff st.minWeight r.weight) :=
            sum_comp_update
              (fun m => (m.claimed + m.pending) * SCALE +
                (st.globalIndex - m.userIndex) * eff st.minWeight m.weight)
              st.members i { r with pending := 0, claimed := r.claimed + r.pending }
          rw [h2, hgap, Nat.zero_mul, Nat.add_zero, Nat.add_zero]
          have hFi : ((st.members i).claimed + (st.members i).pending) * SCALE +
              (st.globalIndex - (st.members i).userIndex)
                * eff st.minWeight ((st.members i).weight)
              ≤ ∑ j, (((st.members j).claimed + (st.members j).pending) * SCALE +
                  (st.globalIndex - (st.members j).userIndex)
                    * eff st.minWeight ((st.members j).weight)) :=
            single_le_sum_fin
              (fun j => ((st.members j).claimed + (st.members j).pending) * SCALE +
                (st.globalIndex - (st.members j).userIndex)
                  * eff st.minWeight ((st.members j).weight)) i
          omega

/-- The conservation invariant holds after any sequence of engine
operations from a fresh state. -/
theorem engineInv_run {n : Nat} (st : EngineState n) (ops : List (Op n))
    (h : engineInv st) : engineInv (runOps st ops) := by
  induction ops generalizing st with
  | nil => exact h
  | cons op rest ih => exact ih (step st op) (engineInv_step st op h)

/-- **C2.** Conservation.  Modelled from spec §4.1–§4.5 (with `claim`
agreeing with claim.rs): for every sequence of distribute, weight-update and
claim operations on one fixed asset, starting from a fresh state, the sum
over all members of claimed plus still-claimable amounts never exceeds the
total distributed amount, because index and payout computations truncate
toward zero. -/
theorem conservation (n minW : Nat) (w : Fin n → Nat) (ops : List (Op n)) :
    sumClaimedClaimable (runOps (initState n minW w) ops) ≤
      (runOps (initState n minW w) ops).distributed := by
  obtain ⟨-, hui, hsum⟩ :=
    engineInv_run (initState n minW w) ops (engineInv_init n minW w)
  set st := runOps (initState n minW w) ops with hst
  have hS : 0 < SCALE := by
    unfold SCALE
    positivity
  have hterm : ∀ i, ((st.members i).claimed + claimableAmt st i) * SCALE ≤
      ((st.members i).claimed + (st.members i).pending) * SCALE +
        (st.globalIndex - (st.members i).userIndex)
          * eff st.minWeight ((st.members i).weight) := by
    intro i
    simp only [claimableAmt]
    calc ((st.members i).claimed + ((st.members i).pending +
          (st.globalIndex - (st.members i).userIndex)
            * eff st.minWeight ((st.members i).weight) / SCALE)) * SCALE
        = ((st.members i).claimed + (st.members i).pending) * SCALE +
            (st.globalIndex - (st.members i).userIndex)
              * eff st.minWeight ((st.members i).weight) / SCALE * SCALE := by ring
      _ ≤ ((st.members i).claimed + (st.members i).pending) * SCALE +
            (st.globalIndex - (st.members i).userIndex)
              * eff st.minWeight ((st.members i).weight) :=
        Nat.add_le_add_left (Nat.div_mul_le_self _ _) _
  have hmul : sumClaimedClaimable st * SCALE ≤ st.distributed * SCALE := by
    unfold sumClaimedClaimable
    rw [Finset.sum_mul]
    exact Nat.le_trans (Finset.sum_le_sum fun i _ => hterm i) hsum
  exact Nat.le_of_mul_le_mul_right hmul hS

end Enterprise
